import Mathlib

/-!
Verification of the transaction-normalization and aggregation pipeline of the
Wisely spending dashboard (`parseCsv.ts` and `App.tsx`).

Strings are modelled as `List Char`, JavaScript numbers as `ℚ` (the pipeline
only ever compares, negates, and sums amounts, so exact rationals are a
faithful abstraction of the finite doubles involved), `Date` objects as their
millisecond timestamps (`ℤ`), and CSV rows (the output of Papa.parse in header
mode) as association lists from header name to cell string.  The two genuine
external functions — the engine's general date parser `new Date(string)` and
`Date.prototype.toISOString` — are taken as parameters (`jsd`, `iso`) of the
definitions that use them.
-/

namespace Wisely

/-- Characters treated as whitespace by ECMAScript `String.prototype.trim` and
by `Number()` conversion (WhiteSpace ∪ LineTerminator; the common members). -/
def isJsWs (c : Char) : Bool :=
  c = ' ' || c = '\t' || c = '\n' || c = '\r' ||
  c = Char.ofNat 11 || c = Char.ofNat 12 ||
  c = Char.ofNat 0xa0 || c = Char.ofNat 0xfeff ||
  c = Char.ofNat 0x2028 || c = Char.ofNat 0x2029

/-- ECMAScript line terminators (not matched by `.` in a regular expression). -/
def isLineTerm (c : Char) : Bool :=
  c = '\n' || c = '\r' || c = Char.ofNat 0x2028 || c = Char.ofNat 0x2029

/-- Model of `String.prototype.trim`: drop leading and trailing whitespace. -/
def jsTrim (s : List Char) : List Char :=
  ((s.dropWhile isJsWs).reverse.dropWhile isJsWs).reverse

/-- Model of `String.prototype.toLowerCase` (ASCII fragment, which is all the
pipeline's keyword matching exercises). -/
def lowerL (s : List Char) : List Char :=
  s.map Char.toLower

/-- Model of `String.prototype.includes`: `needle` occurs as a contiguous
substring of `hay`. -/
def containsL (hay needle : List Char) : Bool :=
  hay.tails.any (fun t => needle.isPrefixOf t)

def isDigitC (c : Char) : Bool :=
  '0' ≤ c && c ≤ '9'

def digVal (c : Char) : Nat :=
  c.toNat - 48

/-- Value of a big-endian digit string. -/
def natOfDigits (l : List Char) : Nat :=
  l.foldl (fun a c => 10 * a + digVal c) 0

/-- Parse the optional exponent suffix of a decimal literal and apply it to the
mantissa `q`; any other trailing text makes the conversion NaN (`none`). -/
def numExpPart (q : ℚ) (rest : List Char) : Option ℚ :=
  match rest with
  | [] => some q
  | c :: es =>
    if c = 'e' || c = 'E' then
      let (sgn, ds0) : ℤ × List Char :=
        match es with
        | '+' :: t => (1, t)
        | '-' :: t => (-1, t)
        | t => (1, t)
      let ds := ds0.takeWhile isDigitC
      if ds.length = ds0.length ∧ ds ≠ [] then
        some (q * (10 : ℚ) ^ (sgn * (natOfDigits ds : ℤ)))
      else none
    else none

/-- Parse an unsigned decimal literal `digits [. digits] [exponent]` (either
the integer or the fraction digits may be empty, not both). -/
def numUnsigned (s : List Char) : Option ℚ :=
  let ip := s.takeWhile isDigitC
  let rest := s.drop ip.length
  match rest with
  | '.' :: frac0 =>
    let fp := frac0.takeWhile isDigitC
    let rest2 := frac0.drop fp.length
    if ip = [] ∧ fp = [] then none
    else
      numExpPart ((natOfDigits ip : ℚ) + (natOfDigits fp : ℚ) / (10 : ℚ) ^ fp.length) rest2
  | _ =>
    if ip = [] then none
    else numExpPart (natOfDigits ip : ℚ) rest

/-- Model of ECMAScript `Number(string)` restricted to finite results, composed
with the `Number.isFinite` check the source applies right after: `none` stands
for NaN or an infinity.  The modelled fragment is the decimal `StrDecimalLiteral`
grammar (sign, integer/fraction digits, exponent) plus the whitespace and
empty-string rules; the non-decimal literal forms (hex/octal/binary) that
`Number` also accepts are outside the formats this pipeline documents. -/
def jsNumber (s0 : List Char) : Option ℚ :=
  let s := jsTrim s0
  match s with
  | [] => some 0
  | '+' :: r => if r = "Infinity".toList then none else numUnsigned r
  | '-' :: r =>
    if r = "Infinity".toList then none else (numUnsigned r).map (fun q => -q)
  | _ => if s = "Infinity".toList then none else numUnsigned s

/-- Test of the regular expression `^\(.*\)$` (`.` does not match a line
terminator, and there is no dotall or multiline flag). -/
def parenNegTest (s : List Char) : Bool :=
  match s with
  | [] => false
  | c :: rest =>
    c = '(' && rest ≠ [] && rest.getLast? = some ')' &&
      rest.dropLast.all (fun d => !isLineTerm d)

/-- Replace-all of the regular expression `[,$]` by the empty string. -/
def stripCommasDollars (s : List Char) : List Char :=
  s.filter (fun c => !(c = ',' || c = '$'))

/-- Replace of `^\(` by the empty string: strip one leading parenthesis. -/
def stripLParen (s : List Char) : List Char :=
  match s with
  | '(' :: r => r
  | _ => s

/-- Replace of `\)$` by the empty string: strip one trailing parenthesis. -/
def stripRParen (s : List Char) : List Char :=
  if s.getLast? = some ')' then s.dropLast else s

/-- Function `parseAmount` from `parseCsv.ts` lines 23–37.  The argument is the value
picked out of the row object: `none` models `undefined`/`null` (also missing
columns), `some s` a string cell. -/
def parseAmount (v : Option (List Char)) : Option ℚ :=
  match v with
  | none => none
  | some raw =>
    let s := jsTrim raw
    if s = [] then none
    else
      let isParenNeg := parenNegTest s
      let cleaned := stripRParen (stripLParen (stripCommasDollars s))
      match jsNumber cleaned with
      | none => none
      | some n => some (if isParenNeg then -n else n)

/-- Amount coercion as §4.1 step 3 of the spec words it: strip `$` and `,`
everywhere, strip one leading `(` and one trailing `)`, convert, and negate
the result exactly when the original (pre-strip, post-trim) value matched the
full-string pattern `(...)`; empty, absent, or non-finite values are absent. -/
def parseAmountSpec (v : Option (List Char)) : Option ℚ :=
  match v with
  | none => none
  | some raw =>
    let s := jsTrim raw
    if s = [] then none
    else
      let stripped := stripRParen (stripLParen (stripCommasDollars s))
      match jsNumber stripped with
      | none => none
      | some n => if parenNegTest s then some (-n) else some n

/-- Function `parseDate` from `parseCsv.ts` lines 39–48.  The engine's general date
parser `new Date(string)` composed with the finiteness check on `getTime()` is
the parameter `jsd`: it sends the trimmed string to `some` millisecond
timestamp, or `none` for an invalid date. -/
def parseDate (jsd : List Char → Option ℤ) (v : Option (List Char)) : Option ℤ :=
  match v with
  | none => none
  | some s =>
    if s = [] then none
    else
      let t := jsTrim s
      if t = [] then none else jsd t

/-- Left-to-right scan of the regular expression `\(([^)]+)\)` with matchAll:
outside a match attempt (`none` state) a `(` opens a candidate group; inside
(`some acc` state, content accumulated reversed) a `)` completes the group,
which is kept only when its content is non-empty (`[^)]+` needs at least one
character); a candidate cut off by the end of input matches nothing. -/
def scanT : Option (List Char) → List Char → List (List Char)
  | _, [] => []
  | none, c :: rest => if c = '(' then scanT (some []) rest else scanT none rest
  | some acc, c :: rest =>
    if c = ')' then
      if acc = [] then scanT none rest else acc.reverse :: scanT none rest
    else scanT (some (c :: acc)) rest

structure CategoryParts where
  base : List Char
  tags : List (List Char)
deriving DecidableEq, Repr

/-- Function `parseCategory` from `parseCsv.ts` lines 50–57: base = `s.split("(")[0]`
trimmed with the `"Uncategorized"` fallback, tags = the matches of
`\(([^)]+)\)`, each trimmed. -/
def parseCategory (raw : List Char) : CategoryParts :=
  let s := jsTrim raw
  if s = [] then ⟨"Uncategorized".toList, []⟩
  else
    let base0 := jsTrim (s.takeWhile (fun c => c ≠ '('))
    let base := if base0 = [] then "Uncategorized".toList else base0
    ⟨base, (scanT none s).map jsTrim⟩

/-- Split at every `)` (the separators are consumed), an independent way to
delimit the parenthesized groups: chunk boundaries are exactly the closing
parentheses of the string. -/
def chunksR : List Char → List (List Char)
  | [] => [[]]
  | c :: rest =>
    if c = ')' then [] :: chunksR rest
    else
      match chunksR rest with
      | [] => [[c]]
      | ch :: chs => (c :: ch) :: chs

def notLp (c : Char) : Bool :=
  !(decide (c = '('))

/-- The group a `)`-delimited chunk contributes: everything after the first
`(` of the chunk, provided that is non-empty. -/
def specTagOf (chunk : List Char) : Option (List Char) :=
  let a := (chunk.dropWhile notLp).drop 1
  if a = [] then none else some a

/-- The parenthesized groups of `s` as the spec describes them: scanning left
to right, every group opened by a `(` and closed by the next `)` with
non-empty content; the text after the last `)` (the last chunk) can close no
group. -/
def specTags (s : List Char) : List (List Char) :=
  (chunksR s).dropLast.filterMap specTagOf

inductive TxType where
  | expense
  | payment_transfer
  | uncategorized
deriving DecidableEq, Repr

/-- Function `classifyTx` from `parseCsv.ts` lines 59–65, rules in source order. -/
def classifyTx (amount : ℚ) (name categoryRaw : List Char) : TxType :=
  let n := lowerL name
  if amount < 0 then TxType.payment_transfer
  else if containsL n "payment".toList && containsL n "thank you".toList then
    TxType.payment_transfer
  else if categoryRaw = [] ∨ jsTrim categoryRaw = [] then TxType.uncategorized
  else TxType.expense

/-- A row as Papa.parse header mode delivers it: property name to cell string,
in column order (a missing column is an absent key). -/
abbrev Row := List (List Char × List Char)

def lookupCell (r : Row) (k : List Char) : Option (List Char) :=
  match r with
  | [] => none
  | p :: rest => if p.1 = k then some p.2 else lookupCell rest k

/-- Function `pickKey` from `parseCsv.ts` lines 16–21: first candidate key present in
the row object wins. -/
def pickKey (r : Row) (keys : List (List Char)) : Option (List Char) :=
  match keys with
  | [] => none
  | k :: ks =>
    match lookupCell r k with
    | some v => some v
    | none => pickKey r ks

def dateKeys : List (List Char) :=
  ["date".toList, "Date".toList, "Transaction Date".toList]

def nameKeys : List (List Char) :=
  ["name".toList, "Name".toList, "description".toList, "Description".toList,
   "merchant".toList, "Merchant".toList]

def amountKeys : List (List Char) :=
  ["amount".toList, "Amount".toList]

def categoryKeys : List (List Char) :=
  ["category".toList, "Category".toList]

def digitChar : Nat → Char
  | 0 => '0'
  | 1 => '1'
  | 2 => '2'
  | 3 => '3'
  | 4 => '4'
  | 5 => '5'
  | 6 => '6'
  | 7 => '7'
  | 8 => '8'
  | 9 => '9'
  | _ => '*'

def natCharsAux : Nat → Nat → List Char
  | 0, _ => []
  | fuel + 1, n =>
    if n < 10 then [digitChar n]
    else natCharsAux fuel (n / 10) ++ [digitChar (n % 10)]

/-- Decimal string of a row index, as template interpolation `${i}` renders
a non-negative integer. -/
def natChars (n : Nat) : List Char :=
  natCharsAux (n + 1) n

structure Transaction where
  id : List Char
  date : ℤ
  name : List Char
  amount : ℚ
  categoryRaw : List Char
  categoryBase : List Char
  tags : List (List Char)
  type : TxType
deriving DecidableEq, Repr

/-- One iteration of the row loop of `parseCsvFile` (`parseCsv.ts` lines
89–118): `none` when the row is skipped by the blank/malformed-row guard.
`iso` is the parameter standing for `Date.prototype.toISOString`. -/
def mkTx (jsd : List Char → Option ℤ) (iso : ℤ → List Char) (i : Nat) (r : Row) :
    Option Transaction :=
  let date? := parseDate jsd (pickKey r dateKeys)
  let name := jsTrim ((pickKey r nameKeys).getD [])
  let amount? := parseAmount (pickKey r amountKeys)
  let categoryRaw := jsTrim ((pickKey r categoryKeys).getD [])
  match date?, amount? with
  | some d, some a =>
    if name = [] then none
    else
      let parts := parseCategory categoryRaw
      some
        { id := iso d ++ '_' :: (natChars i ++ '_' :: name)
          date := d
          name := name
          amount := a
          categoryRaw := if categoryRaw = [] then "Uncategorized".toList else categoryRaw
          categoryBase := parts.base
          tags := parts.tags
          type := classifyTx a name categoryRaw }
  | _, _ => none

/-- The row loop itself: rows processed in order, each contributing its record
or nothing, with the running zero-based row index. -/
def buildTxs (jsd : List Char → Option ℤ) (iso : ℤ → List Char) :
    Nat → List Row → List Transaction
  | _, [] => []
  | i, r :: rs =>
    match mkTx jsd iso i r with
    | some t => t :: buildTxs jsd iso (i + 1) rs
    | none => buildTxs jsd iso (i + 1) rs

/-- The final `txs.sort((a, b) => b.date.getTime() - a.date.getTime())`:
`Array.prototype.sort` is required to be stable, and a stable sort by a total
preorder has a unique result, realized by insertion sort with the relation
"may stay in front of", here `b.date ≤ a.date`. -/
def sortByDateDesc (l : List Transaction) : List Transaction :=
  List.insertionSort (fun a b => b.date ≤ a.date) l

/-- Function `parseCsvFile` from `parseCsv.ts` lines 67–123, after the external pieces
ran: `file.text()` and Papa.parse produced `errs` (the parser's error list,
only ever warned about at lines 75–78) and `rows` (`parsed.data`). -/
def parseCsvFile (jsd : List Char → Option ℤ) (iso : ℤ → List Char)
    (errs : List (List Char)) (rows : List Row) : List Transaction :=
  let _ := errs
  sortByDateDesc (buildTxs jsd iso 0 rows)

/-- The filter predicate of `App.tsx` lines 69–80, with `q` the trimmed,
lowercased search text. -/
def txPred (includeTransfers : Bool) (q : List Char) (t : Transaction) : Bool :=
  if !includeTransfers && decide (t.type = TxType.payment_transfer) then false
  else if q = [] then true
  else
    containsL (lowerL t.name) q || containsL (lowerL t.categoryRaw) q ||
      t.tags.any (fun x => containsL (lowerL x) q)

/-- The `filtered` memo of `App.tsx` lines 69–80 as a function of its inputs. -/
def filterTxs (includeTransfers : Bool) (search : List Char)
    (l : List Transaction) : List Transaction :=
  l.filter (txPred includeTransfers (lowerL (jsTrim search)))

/-- The `expenseOnly` memo of `App.tsx` lines 82–85. -/
def expenseOnly (l : List Transaction) : List Transaction :=
  l.filter (fun t => decide (t.type = TxType.expense))

/-- The `totalSpend` memo of `App.tsx` line 87. -/
def totalSpend (l : List Transaction) : ℚ :=
  ((expenseOnly l).map Transaction.amount).sum

/-- Model of `m.set(key, (m.get(key) ?? 0) + v)` on a JavaScript `Map` in insertion
order: an existing key keeps its position and accumulates, a new key goes to
the end. -/
def upsert (k : List Char) (v : ℚ) : List (List Char × ℚ) → List (List Char × ℚ)
  | [] => [(k, v)]
  | p :: rest => if p.1 = k then (p.1, p.2 + v) :: rest else p :: upsert k v rest

/-- The accumulation loop of the `byCategory` memo (`App.tsx` lines 90–93). -/
def groupFold (l : List Transaction) : List (List Char × ℚ) :=
  l.foldl (fun m t => upsert t.categoryBase t.amount m) []

/-- The `byCategory` memo of `App.tsx` lines 89–98: group expense records by
`categoryBase`, sort by total descending (stable), keep the top 12. -/
def byCategory (l : List Transaction) : List (List Char × ℚ) :=
  (List.insertionSort (fun a b : List Char × ℚ => b.2 ≤ a.2)
    (groupFold (expenseOnly l))).take 12

def sumValues (cl : List (List Char × ℚ)) : ℚ :=
  (cl.map Prod.snd).sum

/-- The row-level defects of §7 of the spec, exactly the guard of
`parseCsv.ts` line 103: unparseable/empty/missing date, name empty after
trimming (or missing), unparseable/empty/missing amount. -/
def rowDefect (jsd : List Char → Option ℤ) (r : Row) : Prop :=
  parseDate jsd (pickKey r dateKeys) = none ∨
  jsTrim ((pickKey r nameKeys).getD []) = [] ∨
  parseAmount (pickKey r amountKeys) = none

/-- An expense record with amount 1 in its own category, used to exercise
aggregation on many distinct categories. -/
def catTx (k : Nat) : Transaction :=
  { id := natChars k
    date := 0
    name := ['m']
    amount := 1
    categoryRaw := 'c' :: natChars k
    categoryBase := 'c' :: natChars k
    tags := []
    type := TxType.expense }

/-- Counterexample input for C6: the CSV parser reported an error for this
input, yet normalization does not fail and does not withhold the result — it
returns the record of the row that did parse. -/
theorem claim_C6_counterexample :
    parseCsvFile (fun s => if s = ['d'] then some 0 else none) (fun _ => ['E'])
      ["oops".toList]
      [[("date".toList, ['d']), ("name".toList, ['N']), ("amount".toList, ['3'])]] ≠ [] ∧
    (parseCsvFile (fun s => if s = ['d'] then some 0 else none) (fun _ => ['E'])
      ["oops".toList]
      [[("date".toList, ['d']), ("name".toList, ['N']), ("amount".toList, ['3'])]]).map
      Transaction.name = [['N']] :=
  ⟨by decide, by decide⟩

/-- C6 as amended: parse errors reported by the CSV parser are only warned
about; they never make the operation fail and never change its result — the
normalizer has no failure channel at all. -/
theorem claim_C6_amended_no_fatal_error :
    ∀ jsd iso errs rows, parseCsvFile jsd iso errs rows = parseCsvFile jsd iso [] rows := by
  intro jsd iso errs rows
  rfl

theorem mkTx_eq_none_iff (jsd : List Char → Option ℤ) (iso : ℤ → List Char)
    (i : Nat) (r : Row) :
    mkTx jsd iso i r = none ↔ rowDefect jsd r := by
  unfold mkTx rowDefect
  cases hd : parseDate jsd (pickKey r dateKeys) with
  | none => simp [hd]
  | some d =>
    cases ha : parseAmount (pickKey r amountKeys) with
    | none => simp [hd, ha]
    | some a =>
      by_cases hn : jsTrim ((pickKey r nameKeys).getD []) = [] <;> simp [hd, ha, hn]

theorem buildTxs_eq_enumFrom (jsd : List Char → Option ℤ) (iso : ℤ → List Char) :
    ∀ (rows : List Row) (k : Nat),
      buildTxs jsd iso k rows =
        (List.enumFrom k rows).filterMap (fun p => mkTx jsd iso p.1 p.2) := by
  intro rows
  induction rows with
  | nil => intro k; rfl
  | cons r rs ih =>
    intro k
    simp only [buildTxs, List.enumFrom, List.filterMap_cons]
    cases h : mkTx jsd iso k r <;> simp [h, ih]

theorem mem_parseCsvFile_iff (jsd : List Char → Option ℤ) (iso : ℤ → List Char)
    (errs : List (List Char)) (rows : List Row) (t : Transaction) :
    t ∈ parseCsvFile jsd iso errs rows ↔
      ∃ p ∈ rows.enum, mkTx jsd iso p.1 p.2 = some t := by
  unfold parseCsvFile sortByDateDesc
  rw [(List.perm_insertionSort _ _).mem_iff, buildTxs_eq_enumFrom]
  simp [List.enum]

theorem mkTx_some_amount (jsd : List Char → Option ℤ) (iso : ℤ → List Char)
    (i : Nat) (r : Row) (t : Transaction) (h : mkTx jsd iso i r = some t) :
    parseAmount (pickKey r amountKeys) = some t.amount := by
  unfold mkTx at h
  cases hd : parseDate jsd (pickKey r dateKeys) <;>
    cases ha : parseAmount (pickKey r amountKeys) <;>
      simp only [hd, ha] at h <;>
        try exact Option.noConfusion h
  case some.some d a =>
    by_cases hn : jsTrim ((pickKey r nameKeys).getD []) = []
    · rw [if_pos hn] at h
      simp at h
    · rw [if_neg hn] at h
      injection h with h2
      rw [← h2]

/-- C7: a row with a row-level defect — unparseable, empty, or missing date,
empty or missing name, unparseable, empty, or missing amount — produces no
record (exactly the rows `mkTx` rejects), an empty amount cell is always such
a defect (never a zero amount), every produced record's amount comes from a
successful parse of its own amount cell, and the normalizer output consists of
exactly the records of the non-defective rows, every other row still being
processed. -/
theorem claim_C7_row_defects :
    (∀ (jsd : List Char → Option ℤ) (iso : ℤ → List Char) (i : Nat) (r : Row),
      mkTx jsd iso i r = none ↔ rowDefect jsd r) ∧
    (∀ v : Option (List Char), jsTrim (v.getD []) = [] → parseAmount v = none) ∧
    (∀ (jsd : List Char → Option ℤ) (iso : ℤ → List Char) (i : Nat) (r : Row)
      (t : Transaction), mkTx jsd iso i r = some t →
        parseAmount (pickKey r amountKeys) = some t.amount) ∧
    (∀ (jsd : List Char → Option ℤ) (iso : ℤ → List Char) (errs : List (List Char))
      (rows : List Row) (t : Transaction),
        t ∈ parseCsvFile jsd iso errs rows ↔
          ∃ p ∈ rows.enum, mkTx jsd iso p.1 p.2 = some t) := by
  refine ⟨mkTx_eq_none_iff, ?_, mkTx_some_amount, mem_parseCsvFile_iff⟩
  intro v hv
  cases v with
  | none => rfl
  | some raw =>
    simp only [Option.getD_some] at hv
    simp [parseAmount, hv]

/-- Witness for C7: a row whose amount cell is empty is defective and dropped,
and a well-formed row's record carries its parsed amount. -/
theorem claim_C7_row_defects_witness :
    mkTx (fun s => if s = ['d'] then some 0 else none) (fun _ => ['E']) 0
      [("date".toList, ['d']), ("name".toList, ['N']), ("amount".toList, [])] = none ∧
    parseAmount (some (' ' :: [])) = none :=
  ⟨(claim_C7_row_defects.1 _ _ 0 _).mpr
      (Or.inr (Or.inr (claim_C7_row_defects.2.1 (some []) (by decide)))),
   claim_C7_row_defects.2.1 (some (' ' :: [])) (by decide)⟩

end Wisely

namespace Wisely

theorem parseAmount_eq_spec (v : Option (List Char)) :
    parseAmount v = parseAmountSpec v := by
  cases v with
  | none => rfl
  | some raw =>
    simp only [parseAmount, parseAmountSpec]
    by_cases h : jsTrim raw = []
    · simp [h]
    · simp only [if_neg h]
      cases hn : jsNumber (stripRParen (stripLParen (stripCommasDollars (jsTrim raw)))) with
      | none => simp [hn]
      | some n => cases hp : parenNegTest (jsTrim raw) <;> simp [hn, hp]

/-- C1: the amount parser maps the four documented forms to the specified
values, and in general it agrees with the spec's description: strip `$` and
`,` everywhere, strip one leading `(` and one trailing `)`, and negate exactly
when the pre-strip value matches the full-string pattern `(...)`. -/
theorem claim_C1_amount_parse :
    parseAmount (some "$1,234.56".toList) = some (1234.56 : ℚ) ∧
    parseAmount (some "(12.34)".toList) = some (-12.34 : ℚ) ∧
    parseAmount (some "-12.34".toList) = some (-12.34 : ℚ) ∧
    parseAmount (some "12.34".toList) = some (12.34 : ℚ) ∧
    ∀ v, parseAmount v = parseAmountSpec v := by
  refine ⟨?_, ?_, ?_, ?_, parseAmount_eq_spec⟩ <;>
    · simp +decide [parseAmount, jsTrim, isJsWs, stripCommasDollars, stripLParen,
        stripRParen, parenNegTest, jsNumber, numUnsigned, numExpPart, natOfDigits,
        digVal, isDigitC]
      norm_num

/-- C2: classification applies its rules in source order, first match wins —
negative amount, then the payment/thank-you name rule, then blank category,
else expense — together with the four documented concrete cases. -/
theorem claim_C2_classification :
    (∀ (a : ℚ) (name categoryRaw : List Char), a < 0 →
      classifyTx a name categoryRaw = TxType.payment_transfer) ∧
    (∀ (a : ℚ) (name categoryRaw : List Char), 0 ≤ a →
      (containsL (lowerL name) "payment".toList &&
        containsL (lowerL name) "thank you".toList) = true →
      classifyTx a name categoryRaw = TxType.payment_transfer) ∧
    (∀ (a : ℚ) (name categoryRaw : List Char), 0 ≤ a →
      (containsL (lowerL name) "payment".toList &&
        containsL (lowerL name) "thank you".toList) = false →
      jsTrim categoryRaw = [] →
      classifyTx a name categoryRaw = TxType.uncategorized) ∧
    (∀ (a : ℚ) (name categoryRaw : List Char), 0 ≤ a →
      (containsL (lowerL name) "payment".toList &&
        containsL (lowerL name) "thank you".toList) = false →
      jsTrim categoryRaw ≠ [] →
      classifyTx a name categoryRaw = TxType.expense) ∧
    classifyTx (-5) "Anything".toList "Food".toList = TxType.payment_transfer ∧
    classifyTx 20 "Payment Thank You".toList "Food".toList = TxType.payment_transfer ∧
    classifyTx 20 "Coffee Shop".toList [] = TxType.uncategorized ∧
    classifyTx 20 "Coffee Shop".toList "Food".toList = TxType.expense := by
  refine ⟨?_, ?_, ?_, ?_, ?_, ?_, ?_, ?_⟩
  · intro a name categoryRaw h
    simp only [classifyTx]
    rw [if_pos h]
  · intro a name categoryRaw h0 hn
    simp only [classifyTx]
    rw [if_neg (not_lt.mpr h0), if_pos hn]
  · intro a name categoryRaw h0 hn hc
    have hn' : ¬ ((containsL (lowerL name) "payment".toList &&
        containsL (lowerL name) "thank you".toList) = true) := by
      rw [hn]
      exact Bool.false_ne_true
    simp only [classifyTx]
    rw [if_neg (not_lt.mpr h0), if_neg hn', if_pos (Or.inr hc)]
  · intro a name categoryRaw h0 hn hc
    have hn' : ¬ ((containsL (lowerL name) "payment".toList &&
        containsL (lowerL name) "thank you".toList) = true) := by
      rw [hn]
      exact Bool.false_ne_true
    have hcc : ¬ (categoryRaw = [] ∨ jsTrim categoryRaw = []) := by
      rintro (rfl | e)
      · exact hc rfl
      · exact hc e
    simp only [classifyTx]
    rw [if_neg (not_lt.mpr h0), if_neg hn', if_neg hcc]
  · norm_num [classifyTx]
  · norm_num [classifyTx]
    decide
  · norm_num [classifyTx]
    decide
  · norm_num [classifyTx]
    decide

/-- Witness for C2: each general clause applied at a concrete input. -/
theorem claim_C2_classification_witness :
    classifyTx (-7) "x".toList "y".toList = TxType.payment_transfer ∧
    classifyTx 3 "My Payment - thank you".toList "z".toList = TxType.payment_transfer ∧
    classifyTx 3 "Shop".toList "  ".toList = TxType.uncategorized ∧
    classifyTx 3 "Shop".toList "Food".toList = TxType.expense :=
  ⟨claim_C2_classification.1 _ _ _ (by norm_num),
   claim_C2_classification.2.1 _ _ _ (by norm_num) (by decide),
   claim_C2_classification.2.2.1 _ _ _ (by norm_num) (by decide) (by decide),
   claim_C2_classification.2.2.2.1 _ _ _ (by norm_num) (by decide) (by decide)⟩

theorem dropWhile_head_false {α : Type} (p : α → Bool) :
    ∀ (l : List α) (x : α) (xs : List α), l.dropWhile p = x :: xs → p x = false := by
  intro l
  induction l with
  | nil =>
    intro x xs h
    simp [List.dropWhile] at h
  | cons a t ih =>
    intro x xs h
    rw [List.dropWhile_cons] at h
    by_cases hp : p a = true
    · rw [if_pos hp] at h
      exact ih x xs h
    · rw [if_neg hp] at h
      injection h with h1 h2
      subst h1
      simp only [Bool.not_eq_true] at hp
      exact hp

theorem chunksR_ne_nil (s : List Char) : chunksR s ≠ [] := by
  induction s with
  | nil => simp [chunksR]
  | cons c rest ih =>
    simp only [chunksR]
    by_cases h : c = ')'
    · simp [h]
    · cases hr : chunksR rest <;> simp [h]

theorem chunksR_no_rparen :
    ∀ s : List Char, (∀ c ∈ s, ¬ c = ')') → chunksR s = [s] := by
  intro s
  induction s with
  | nil => intro _; rfl
  | cons c rest ih =>
    intro h
    have hc : ¬ c = ')' := h c (by simp)
    have hrest := ih (fun d hd => h d (by simp [hd]))
    simp [chunksR, hc, hrest]

theorem chunksR_split :
    ∀ a : List Char, (∀ c ∈ a, ¬ c = ')') →
      ∀ b : List Char, chunksR (a ++ ')' :: b) = a :: chunksR b := by
  intro a
  induction a with
  | nil => intro _ b; simp [chunksR]
  | cons c a0 ih =>
    intro h b
    have hc : ¬ c = ')' := h c (by simp)
    have hrest := ih (fun d hd => h d (by simp [hd])) b
    simp [chunksR, hc, hrest]

theorem scanT_no_rparen :
    ∀ s : List Char, (∀ c ∈ s, ¬ c = ')') → ∀ st, scanT st s = [] := by
  intro s
  induction s with
  | nil => intro _ st; cases st <;> rfl
  | cons c rest ih =>
    intro h st
    have hc : ¬ c = ')' := h c (by simp)
    have hrest := ih (fun d hd => h d (by simp [hd]))
    cases st with
    | none =>
      simp only [scanT]
      by_cases h2 : c = '('
      · rw [if_pos h2]
        exact hrest _
      · rw [if_neg h2]
        exact hrest _
    | some acc =>
      simp only [scanT]
      rw [if_neg hc]
      exact hrest _

theorem scanT_inside_split :
    ∀ a : List Char, (∀ c ∈ a, ¬ c = ')') → ∀ (acc b : List Char),
      scanT (some acc) (a ++ ')' :: b) =
        (if acc.reverse ++ a = [] then [] else [acc.reverse ++ a]) ++ scanT none b := by
  intro a
  induction a with
  | nil =>
    intro _ acc b
    by_cases h : acc = [] <;> simp [scanT, h]
  | cons c a0 ih =>
    intro h acc b
    have hc : ¬ c = ')' := h c (by simp)
    have hrest := ih (fun d hd => h d (by simp [hd])) (c :: acc) b
    simp only [List.cons_append, scanT, List.append_eq]
    rw [if_neg hc, hrest]
    have hne1 : ¬ ((c :: acc).reverse ++ a0 = []) := by simp
    have hne2 : ¬ (acc.reverse ++ c :: a0 = []) := by simp
    rw [if_neg hne1, if_neg hne2]
    simp

theorem scanT_outside_split :
    ∀ a : List Char, (∀ c ∈ a, ¬ c = ')') → ∀ b : List Char,
      scanT none (a ++ ')' :: b) = (specTagOf a).toList ++ scanT none b := by
  intro a
  induction a with
  | nil =>
    intro _ b
    simp [scanT, specTagOf]
  | cons c a0 ih =>
    intro h b
    have hc : ¬ c = ')' := h c (by simp)
    have hfree : ∀ d ∈ a0, ¬ d = ')' := fun d hd => h d (by simp [hd])
    simp only [List.cons_append, scanT, List.append_eq]
    by_cases h2 : c = '('
    · rw [if_pos h2, scanT_inside_split a0 hfree [] b]
      subst h2
      have e : List.dropWhile notLp ('(' :: a0) = '(' :: a0 := by
        rw [List.dropWhile_cons]
        norm_num [notLp]
      have htag : specTagOf ('(' :: a0) = if a0 = [] then none else some a0 := by
        simp only [specTagOf, e, List.drop_one, List.tail_cons]
      rw [htag]
      by_cases h3 : a0 = [] <;> simp [h3]
    · rw [if_neg h2, ih hfree b]
      have e : List.dropWhile notLp (c :: a0) = List.dropWhile notLp a0 := by
        rw [List.dropWhile_cons, if_pos]
        simp [notLp, h2]
      have htag : specTagOf (c :: a0) = specTagOf a0 := by
        simp only [specTagOf, e]
      rw [htag]

theorem scanT_eq_specTags (s : List Char) : scanT none s = specTags s := by
  have H : ∀ (n : Nat) (t : List Char), t.length ≤ n → scanT none t = specTags t := by
    intro n
    induction n with
    | zero =>
      intro t ht
      have h0 : t = [] := List.eq_nil_of_length_eq_zero (Nat.le_zero.mp ht)
      subst h0
      rfl
    | succ n ih =>
      intro t ht
      cases hd : t.dropWhile (fun c => c ≠ ')') with
      | nil =>
        have hfree : ∀ c ∈ t, ¬ c = ')' := by
          intro c hc
          have := List.dropWhile_eq_nil_iff.mp hd c hc
          simpa using this
        rw [scanT_no_rparen t hfree none]
        simp [specTags, chunksR_no_rparen t hfree]
      | cons d b =>
        have hdp : (fun c : Char => decide (c ≠ ')')) d = false :=
          dropWhile_head_false _ t d b hd
        have hdr : d = ')' := by simpa using hdp
        subst hdr
        have hsplit : t = t.takeWhile (fun c => c ≠ ')') ++ ')' :: b := by
          conv_lhs => rw [← List.takeWhile_append_dropWhile (fun c => decide (c ≠ ')')) t]
          rw [hd]
        have hfree : ∀ c ∈ t.takeWhile (fun c => c ≠ ')'), ¬ c = ')' := by
          intro c hc
          simpa using List.mem_takeWhile_imp hc
        have hblen : b.length ≤ n := by
          have h1 : t.length = (t.takeWhile (fun c => c ≠ ')')).length + (b.length + 1) := by
            conv_lhs => rw [hsplit]
            simp
          omega
        calc scanT none t = scanT none (t.takeWhile (fun c => c ≠ ')') ++ ')' :: b) := by
              rw [← hsplit]
          _ = (specTagOf (t.takeWhile (fun c => c ≠ ')'))).toList ++ scanT none b :=
              scanT_outside_split _ hfree b
          _ = (specTagOf (t.takeWhile (fun c => c ≠ ')'))).toList ++ specTags b := by
              rw [ih b hblen]
          _ = specTags t := by
              conv_rhs => rw [hsplit]
              simp only [specTags, chunksR_split _ hfree b]
              cases hcb : chunksR b with
              | nil => exact absurd hcb (chunksR_ne_nil b)
              | cons ch chs =>
                simp only [List.dropLast_cons₂, List.filterMap_cons]
                cases htag : specTagOf (t.takeWhile (fun c => c ≠ ')')) <;> simp
  exact H s.length s le_rfl

theorem filter_orderedInsert_key {α β : Type} [LinearOrder β]
    (f : α → β) (d : β) (x : α) (l : List α) (hx : f x = d) :
    (List.orderedInsert (fun a b => f b ≤ f a) x l).filter (fun y => decide (f y = d)) =
      x :: l.filter (fun y => decide (f y = d)) := by
  induction l with
  | nil => simp [List.orderedInsert, hx]
  | cons u us ih =>
    by_cases h : f u ≤ f x
    · rw [List.orderedInsert, if_pos h]
      simp [List.filter_cons, hx]
    · have hdu : ¬ (f u = d) := by
        intro e
        exact h (le_of_eq (e.trans hx.symm))
      rw [List.orderedInsert, if_neg h]
      simp [List.filter_cons, hdu, ih]

theorem filter_orderedInsert_key_ne {α β : Type} [LinearOrder β]
    (f : α → β) (d : β) (x : α) (l : List α) (hx : ¬ (f x = d)) :
    (List.orderedInsert (fun a b => f b ≤ f a) x l).filter (fun y => decide (f y = d)) =
      l.filter (fun y => decide (f y = d)) := by
  induction l with
  | nil => simp [List.orderedInsert, hx]
  | cons u us ih =>
    by_cases h : f u ≤ f x
    · rw [List.orderedInsert, if_pos h]
      simp [List.filter_cons, hx]
    · rw [List.orderedInsert, if_neg h]
      simp [List.filter_cons, ih]

/-- Stability of the insertion-sort model of a stable JavaScript sort: the
subsequence of elements with any fixed key is exactly as in the input. -/
theorem filter_insertionSort_key {α β : Type} [LinearOrder β]
    (f : α → β) (d : β) (l : List α) :
    (List.insertionSort (fun a b => f b ≤ f a) l).filter (fun y => decide (f y = d)) =
      l.filter (fun y => decide (f y = d)) := by
  induction l with
  | nil => rfl
  | cons x xs ih =>
    simp only [List.insertionSort]
    by_cases hx : f x = d
    · rw [filter_orderedInsert_key f d x _ hx, ih]
      simp [hx]
    · rw [filter_orderedInsert_key_ne f d x _ hx, ih]
      simp [hx]

/-- C3: for a non-empty raw category string, the base is the substring before
the first literal parenthesis, trimmed, defaulting to Uncategorized when that
is empty, and the tags are exactly the non-nested parenthesized groups of the
string (as delimited independently by `specTags`), trimmed, left to right;
with the documented concrete example. -/
theorem claim_C3_category_decomposition :
    (∀ raw : List Char, raw ≠ [] →
      (parseCategory raw).base =
        (if jsTrim ((jsTrim raw).takeWhile (fun c => c ≠ '(')) = []
         then "Uncategorized".toList
         else jsTrim ((jsTrim raw).takeWhile (fun c => c ≠ '('))) ∧
      (parseCategory raw).tags = (specTags (jsTrim raw)).map jsTrim) ∧
    parseCategory "Food (Groceries) (Recurring)".toList =
      ⟨"Food".toList, ["Groceries".toList, "Recurring".toList]⟩ := by
  constructor
  · intro raw _
    by_cases h : jsTrim raw = []
    · have h0 : jsTrim ([] : List Char) = [] := rfl
      constructor
      · rw [h]
        simp [parseCategory, h, h0]
      · simp [parseCategory, h, specTags, chunksR]
    · constructor
      · simp [parseCategory, h]
      · simp only [parseCategory, if_neg h]
        rw [scanT_eq_specTags]
  · decide

/-- Witness for C3 at the documented example string. -/
theorem claim_C3_category_decomposition_witness :
    (parseCategory "Food (Groceries) (Recurring)".toList).base =
      (if jsTrim ((jsTrim "Food (Groceries) (Recurring)".toList).takeWhile
          (fun c => c ≠ '(')) = []
       then "Uncategorized".toList
       else jsTrim ((jsTrim "Food (Groceries) (Recurring)".toList).takeWhile
          (fun c => c ≠ '('))) ∧
    (parseCategory "Food (Groceries) (Recurring)".toList).tags =
      (specTags (jsTrim "Food (Groceries) (Recurring)".toList)).map jsTrim :=
  claim_C3_category_decomposition.1 _ (by decide)

/-- Counterexample input for C4: two rows with the same date, names A then B;
the normalizer returns them with A still first — equal-date records keep their
relative input order, they are not reversed. -/
theorem claim_C4_counterexample :
    (parseCsvFile (fun s => if s = ['d'] then some 0 else none) (fun _ => ['D']) []
        [[("date".toList, ['d']), ("name".toList, ['A']), ("amount".toList, ['1'])],
         [("date".toList, ['d']), ("name".toList, ['B']), ("amount".toList, ['1'])]]).map
      Transaction.name = [['A'], ['B']] ∧
    (parseCsvFile (fun s => if s = ['d'] then some 0 else none) (fun _ => ['D']) []
        [[("date".toList, ['d']), ("name".toList, ['A']), ("amount".toList, ['1'])],
         [("date".toList, ['d']), ("name".toList, ['B']), ("amount".toList, ['1'])]]).map
      Transaction.date = [0, 0] ∧
    ¬ ((parseCsvFile (fun s => if s = ['d'] then some 0 else none) (fun _ => ['D']) []
        [[("date".toList, ['d']), ("name".toList, ['A']), ("amount".toList, ['1'])],
         [("date".toList, ['d']), ("name".toList, ['B']), ("amount".toList, ['1'])]]).map
      Transaction.name = [['B'], ['A']]) := by
  refine ⟨by decide, by decide, by decide⟩

/-- C4 as amended: the normalizer output is sorted by date descending, and
records with equal dates appear in their relative input order (the order of
`buildTxs`, the pre-sort row loop) — the sort is stable, not tie-reversing. -/
theorem claim_C4_amended_sort :
    ∀ (jsd : List Char → Option ℤ) (iso : ℤ → List Char)
      (errs : List (List Char)) (rows : List Row),
      List.Pairwise (fun a b : Transaction => b.date ≤ a.date)
        (parseCsvFile jsd iso errs rows) ∧
      ∀ d : ℤ,
        (parseCsvFile jsd iso errs rows).filter (fun t => decide (t.date = d)) =
          (buildTxs jsd iso 0 rows).filter (fun t => decide (t.date = d)) := by
  intro jsd iso errs rows
  constructor
  · haveI ht : IsTotal Transaction (fun a b => b.date ≤ a.date) :=
      ⟨fun a b => le_total b.date a.date⟩
    haveI htr : IsTrans Transaction (fun a b => b.date ≤ a.date) :=
      ⟨fun a b c hab hbc => le_trans hbc hab⟩
    exact List.sorted_insertionSort _ _
  · intro d
    exact filter_insertionSort_key Transaction.date d _

/-- C8: filtering with transfers included and an empty search string is the
identity on any record list, preserving order. -/
theorem claim_C8_filter_identity :
    ∀ l : List Transaction, filterTxs true [] l = l := by
  intro l
  exact List.filter_eq_self.mpr (fun t _ => rfl)

theorem sumValues_cons (p : List Char × ℚ) (m : List (List Char × ℚ)) :
    sumValues (p :: m) = p.2 + sumValues m := by
  simp [sumValues]

theorem sumValues_upsert (k : List Char) (v : ℚ) (m : List (List Char × ℚ)) :
    sumValues (upsert k v m) = sumValues m + v := by
  induction m with
  | nil => simp [upsert, sumValues]
  | cons p rest ih =>
    by_cases h : p.1 = k
    · rw [upsert, if_pos h, sumValues_cons, sumValues_cons]
      ring
    · rw [upsert, if_neg h, sumValues_cons, sumValues_cons, ih]
      ring

theorem sumValues_foldl_upsert (l : List Transaction) :
    ∀ m : List (List Char × ℚ),
      sumValues (l.foldl (fun m t => upsert t.categoryBase t.amount m) m) =
        sumValues m + (l.map Transaction.amount).sum := by
  induction l with
  | nil => intro m; simp
  | cons t ts ih =>
    intro m
    rw [List.foldl_cons, ih, sumValues_upsert]
    simp only [List.map_cons, List.sum_cons]
    ring

theorem sumValues_groupFold (l : List Transaction) :
    sumValues (groupFold l) = (l.map Transaction.amount).sum := by
  rw [groupFold, sumValues_foldl_upsert]
  simp [sumValues]

/-- Counterexample input for C5: thirteen expense records with thirteen
distinct categories of 1 each; the category grouping is truncated to the top
12, so its values sum to 12 while total spend is 13. -/
theorem claim_C5_counterexample :
    ¬ (totalSpend ((List.range 13).map catTx) =
        sumValues (byCategory ((List.range 13).map catTx))) := by
  have h1 : totalSpend ((List.range 13).map catTx) = 13 := by
    simp +decide [totalSpend, expenseOnly, catTx, List.range_succ]
    norm_num
  have h2 : sumValues (byCategory ((List.range 13).map catTx)) = 12 := by
    simp +decide [byCategory, groupFold, expenseOnly, catTx, List.range_succ, upsert,
      natChars, natCharsAux, digitChar, List.insertionSort, List.orderedInsert, sumValues]
    norm_num
  rw [h1, h2]
  norm_num

/-- C5 as amended: total spend equals the sum of the grouped category totals
whenever there are at most 12 distinct expense categories (so that the top-12
truncation of the category view drops nothing). -/
theorem claim_C5_amended_total_vs_categories :
    ∀ l : List Transaction, (groupFold (expenseOnly l)).length ≤ 12 →
      totalSpend l = sumValues (byCategory l) := by
  intro l h
  have hperm := List.perm_insertionSort (fun a b : List Char × ℚ => b.2 ≤ a.2)
    (groupFold (expenseOnly l))
  have hlen :
      (List.insertionSort (fun a b : List Char × ℚ => b.2 ≤ a.2)
        (groupFold (expenseOnly l))).length ≤ 12 := by
    rw [hperm.length_eq]
    exact h
  have hsum :
      sumValues (List.insertionSort (fun a b : List Char × ℚ => b.2 ≤ a.2)
        (groupFold (expenseOnly l))) = sumValues (groupFold (expenseOnly l)) := by
    unfold sumValues
    exact (hperm.map Prod.snd).sum_eq
  rw [byCategory, List.take_of_length_le hlen, hsum, sumValues_groupFold]
  rfl

/-- Witness for C5 at a single-record list (one category, well under 12). -/
theorem claim_C5_amended_total_vs_categories_witness :
    totalSpend [catTx 0] = sumValues (byCategory [catTx 0]) :=
  claim_C5_amended_total_vs_categories [catTx 0] (by decide)

theorem digitChar_ne_underscore : ∀ n : Nat, digitChar n ≠ '_' := by
  intro n
  unfold digitChar
  split <;> decide

theorem natCharsAux_ne_nil : ∀ (f n : Nat), n < f → natCharsAux f n ≠ [] := by
  intro f n h
  cases f with
  | zero => omega
  | succ f =>
    simp only [natCharsAux]
    split <;> simp

theorem natCharsAux_no_underscore :
    ∀ (f n : Nat) (c : Char), c ∈ natCharsAux f n → c ≠ '_' := by
  intro f
  induction f with
  | zero =>
    intro n c h
    simp [natCharsAux] at h
  | succ f ih =>
    intro n c h
    simp only [natCharsAux] at h
    by_cases h10 : n < 10
    · rw [if_pos h10] at h
      simp only [List.mem_singleton] at h
      rw [h]
      exact digitChar_ne_underscore n
    · rw [if_neg h10] at h
      rcases List.mem_append.mp h with h1 | h2
      · exact ih _ _ h1
      · simp only [List.mem_singleton] at h2
        rw [h2]
        exact digitChar_ne_underscore _

theorem natChars_no_underscore (n : Nat) (c : Char) (h : c ∈ natChars n) : c ≠ '_' :=
  natCharsAux_no_underscore _ _ _ h

theorem digitChar_inj : ∀ a, a < 10 → ∀ b, b < 10 → digitChar a = digitChar b → a = b := by
  decide

theorem natCharsAux_inj :
    ∀ (f1 n1 : Nat), n1 < f1 → ∀ (f2 n2 : Nat), n2 < f2 →
      natCharsAux f1 n1 = natCharsAux f2 n2 → n1 = n2 := by
  intro f1
  induction f1 with
  | zero => intro n1 h1; omega
  | succ f1 ih =>
    intro n1 h1 f2 n2 h2 heq
    cases f2 with
    | zero => omega
    | succ f2 =>
      simp only [natCharsAux] at heq
      by_cases a1 : n1 < 10 <;> by_cases a2 : n2 < 10
      · rw [if_pos a1, if_pos a2] at heq
        simp only [List.cons.injEq] at heq
        exact digitChar_inj n1 a1 n2 a2 heq.1
      · rw [if_pos a1, if_neg a2] at heq
        have hlen := congrArg List.length heq
        simp only [List.length_singleton, List.length_append] at hlen
        have hne := natCharsAux_ne_nil f2 (n2 / 10)
          (by
            have := Nat.div_lt_self (show 0 < n2 by omega) (show 1 < 10 by omega)
            omega)
        have : (natCharsAux f2 (n2 / 10)).length = 0 := by omega
        exact absurd (List.length_eq_zero.mp this) hne
      · rw [if_neg a1, if_pos a2] at heq
        have hlen := congrArg List.length heq
        simp only [List.length_singleton, List.length_append] at hlen
        have hne := natCharsAux_ne_nil f1 (n1 / 10)
          (by
            have := Nat.div_lt_self (show 0 < n1 by omega) (show 1 < 10 by omega)
            omega)
        have : (natCharsAux f1 (n1 / 10)).length = 0 := by omega
        exact absurd (List.length_eq_zero.mp this) hne
      · rw [if_neg a1, if_neg a2] at heq
        have heq2 := congrArg List.reverse heq
        simp only [List.reverse_append, List.reverse_cons, List.reverse_nil,
          List.nil_append, List.singleton_append, List.cons.injEq] at heq2
        have hmod : n1 % 10 = n2 % 10 :=
          digitChar_inj _ (Nat.mod_lt _ (by omega)) _ (Nat.mod_lt _ (by omega)) heq2.1
        have hdivs : natCharsAux f1 (n1 / 10) = natCharsAux f2 (n2 / 10) := by
          have := congrArg List.reverse heq2.2
          simpa using this
        have hdiv : n1 / 10 = n2 / 10 := by
          refine ih (n1 / 10) ?_ f2 (n2 / 10) ?_ hdivs
          · have := Nat.div_lt_self (show 0 < n1 by omega) (show 1 < 10 by omega)
            omega
          · have := Nat.div_lt_self (show 0 < n2 by omega) (show 1 < 10 by omega)
            omega
        omega

theorem natChars_inj (m n : Nat) (h : natChars m = natChars n) : m = n :=
  natCharsAux_inj (m + 1) m (Nat.lt_succ_self m) (n + 1) n (Nat.lt_succ_self n) h

theorem append_sep_inj (sep : Char) :
    ∀ A : List Char, sep ∉ A → ∀ B : List Char, sep ∉ B →
      ∀ x y : List Char, A ++ sep :: x = B ++ sep :: y → A = B ∧ x = y := by
  intro A
  induction A with
  | nil =>
    intro _ B hB x y h
    cases B with
    | nil =>
      simp only [List.nil_append, List.cons.injEq] at h
      exact ⟨rfl, h.2⟩
    | cons b B0 =>
      simp only [List.nil_append, List.cons_append, List.cons.injEq] at h
      exact absurd (h.1 ▸ List.mem_cons_self b B0) (h.1 ▸ hB)
  | cons a A0 ih =>
    intro hA B hB x y h
    cases B with
    | nil =>
      simp only [List.cons_append, List.nil_append, List.cons.injEq] at h
      exact absurd (h.1 ▸ List.mem_cons_self a A0) (by rw [h.1] at hA; exact hA)
    | cons b B0 =>
      simp only [List.cons_append, List.cons.injEq] at h
      have hA0 : sep ∉ A0 := fun hm => hA (List.mem_cons_of_mem a hm)
      have hB0 : sep ∉ B0 := fun hm => hB (List.mem_cons_of_mem b hm)
      obtain ⟨e1, e2⟩ := ih hA0 B0 hB0 x y h.2
      exact ⟨by rw [h.1, e1], e2⟩

theorem mkTx_id (jsd : List Char → Option ℤ) (iso : ℤ → List Char)
    (i : Nat) (r : Row) (t : Transaction) (h : mkTx jsd iso i r = some t) :
    t.id = iso t.date ++ '_' :: (natChars i ++ '_' :: t.name) := by
  unfold mkTx at h
  cases hd : parseDate jsd (pickKey r dateKeys) <;>
    cases ha : parseAmount (pickKey r amountKeys) <;>
      simp only [hd, ha] at h <;>
        try exact Option.noConfusion h
  case some.some d a =>
    by_cases hn : jsTrim ((pickKey r nameKeys).getD []) = []
    · rw [if_pos hn] at h
      simp at h
    · rw [if_neg hn] at h
      injection h with h2
      rw [← h2]

theorem mem_buildTxs (jsd : List Char → Option ℤ) (iso : ℤ → List Char) :
    ∀ (rows : List Row) (k : Nat) (t : Transaction),
      t ∈ buildTxs jsd iso k rows →
        ∃ i, k ≤ i ∧ ∃ r, mkTx jsd iso i r = some t := by
  intro rows
  induction rows with
  | nil =>
    intro k t h
    simp [buildTxs] at h
  | cons r rs ih =>
    intro k t h
    simp only [buildTxs] at h
    cases hm : mkTx jsd iso k r with
    | none =>
      rw [hm] at h
      obtain ⟨i, hi, hr⟩ := ih (k + 1) t h
      exact ⟨i, by omega, hr⟩
    | some t0 =>
      rw [hm] at h
      rcases List.mem_cons.mp h with h1 | h2
      · exact ⟨k, le_rfl, r, by rw [← h1] at hm; exact hm⟩
      · obtain ⟨i, hi, hr⟩ := ih (k + 1) t h2
        exact ⟨i, by omega, hr⟩

theorem buildTxs_id_pairwise (jsd : List Char → Option ℤ) (iso : ℤ → List Char)
    (hiso : ∀ n : ℤ, '_' ∉ iso n) :
    ∀ (rows : List Row) (k : Nat),
      List.Pairwise (fun a b : Transaction => a.id ≠ b.id) (buildTxs jsd iso k rows) := by
  intro rows
  induction rows with
  | nil => intro k; exact List.Pairwise.nil
  | cons r rs ih =>
    intro k
    simp only [buildTxs]
    cases hm : mkTx jsd iso k r with
    | none => exact ih (k + 1)
    | some t =>
      refine List.Pairwise.cons ?_ (ih (k + 1))
      intro u hu hid
      obtain ⟨j, hj, rj, hmj⟩ := mem_buildTxs jsd iso rs (k + 1) u hu
      rw [mkTx_id jsd iso k r t hm, mkTx_id jsd iso j rj u hmj] at hid
      obtain ⟨_, h2⟩ := append_sep_inj '_' _ (hiso t.date) _ (hiso u.date) _ _ hid
      obtain ⟨h3, _⟩ := append_sep_inj '_' _
        (fun hm2 => natChars_no_underscore k '_' hm2 rfl) _
        (fun hm2 => natChars_no_underscore j '_' hm2 rfl) _ _ h2
      have := natChars_inj k j h3
      omega

/-- C9: every record's id is the ISO date rendering, the zero-based row index
in decimal, and the trimmed name joined by underscores, and — because the ISO
rendering never contains an underscore — the ids of the records of one parse
call are pairwise distinct. -/
theorem claim_C9_id_uniqueness :
    (∀ (jsd : List Char → Option ℤ) (iso : ℤ → List Char) (i : Nat) (r : Row)
      (t : Transaction), mkTx jsd iso i r = some t →
        t.id = iso t.date ++ '_' :: (natChars i ++ '_' :: t.name)) ∧
    (∀ (jsd : List Char → Option ℤ) (iso : ℤ → List Char) (errs : List (List Char))
      (rows : List Row), (∀ n : ℤ, '_' ∉ iso n) →
        List.Pairwise (fun a b : Transaction => a.id ≠ b.id)
          (parseCsvFile jsd iso errs rows)) := by
  refine ⟨mkTx_id, ?_⟩
  intro jsd iso errs rows hiso
  unfold parseCsvFile sortByDateDesc
  exact ((List.perm_insertionSort _ _).pairwise_iff
      (fun {x y} h e => h e.symm)).mpr
    (buildTxs_id_pairwise jsd iso hiso rows 0)

/-- Witness for C9: the underscore-free hypothesis discharged at a concrete
ISO renderer, on a two-row input. -/
theorem claim_C9_id_uniqueness_witness :
    List.Pairwise (fun a b : Transaction => a.id ≠ b.id)
      (parseCsvFile (fun s => if s = ['d'] then some 0 else none) (fun _ => ['D']) []
        [[("date".toList, ['d']), ("name".toList, ['A']), ("amount".toList, ['1'])],
         [("date".toList, ['d']), ("name".toList, ['B']), ("amount".toList, ['1'])]]) :=
  claim_C9_id_uniqueness.2 _ _ _ _ (fun n => by decide)

theorem jsTrim_nil_all (s : List Char) (h : jsTrim s = []) :
    ∀ c ∈ s, isJsWs c = true := by
  unfold jsTrim at h
  have h1 : (s.dropWhile isJsWs).reverse.dropWhile isJsWs = [] := by
    simpa using congrArg List.reverse h
  have h2 : ∀ c ∈ (s.dropWhile isJsWs).reverse, isJsWs c :=
    List.dropWhile_eq_nil_iff.mp h1
  have h3 : ∀ c ∈ s.dropWhile isJsWs, isJsWs c :=
    fun c hc => h2 c (List.mem_reverse.mpr hc)
  intro c hc
  have hc2 : c ∈ s.takeWhile isJsWs ++ s.dropWhile isJsWs := by
    rw [List.takeWhile_append_dropWhile]
    exact hc
  rcases List.mem_append.mp hc2 with h4 | h4
  · exact List.mem_takeWhile_imp h4
  · exact h3 c h4

theorem jsTrim_all_nil (s : List Char) (h : ∀ c ∈ jsTrim s, isJsWs c = true) :
    jsTrim s = [] := by
  by_contra hne
  cases hB : (s.dropWhile isJsWs).reverse.dropWhile isJsWs with
  | nil =>
    exact hne (by unfold jsTrim; rw [hB]; rfl)
  | cons x xs =>
    have hx : isJsWs x = false := dropWhile_head_false _ _ _ _ hB
    have hmem : x ∈ jsTrim s := by
      unfold jsTrim
      rw [hB]
      exact List.mem_reverse.mpr (List.mem_cons_self x xs)
    rw [h x hmem] at hx
    exact Bool.noConfusion hx

theorem jsTrim_jsTrim_nil (s : List Char) (h : jsTrim (jsTrim s) = []) :
    jsTrim s = [] :=
  jsTrim_all_nil s (jsTrim_nil_all (jsTrim s) h)

theorem classifyTx_uncategorized (a : ℚ) (name c : List Char)
    (h : classifyTx a name c = TxType.uncategorized) : c = [] ∨ jsTrim c = [] := by
  unfold classifyTx at h
  by_cases h1 : a < 0
  · rw [if_pos h1] at h
    exact TxType.noConfusion h
  · rw [if_neg h1] at h
    by_cases h2 : (containsL (lowerL name) "payment".toList &&
        containsL (lowerL name) "thank you".toList) = true
    · rw [if_pos h2] at h
      exact TxType.noConfusion h
    · rw [if_neg h2] at h
      by_cases h3 : c = [] ∨ jsTrim c = []
      · exact h3
      · rw [if_neg h3] at h
        exact TxType.noConfusion h

/-- C10: classification sees the pre-substitution category cell while the
stored field substitutes Uncategorized afterwards, so every produced record
has a non-empty categoryRaw, and an uncategorized record has the literal
Uncategorized as categoryRaw and categoryBase and no tags. -/
theorem claim_C10_uncategorized_invariant :
    ∀ (jsd : List Char → Option ℤ) (iso : ℤ → List Char) (errs : List (List Char))
      (rows : List Row) (t : Transaction), t ∈ parseCsvFile jsd iso errs rows →
        t.categoryRaw ≠ [] ∧
        (t.type = TxType.uncategorized →
          t.categoryRaw = "Uncategorized".toList ∧
          t.categoryBase = "Uncategorized".toList ∧
          t.tags = []) := by
  intro jsd iso errs rows t ht
  rw [mem_parseCsvFile_iff] at ht
  obtain ⟨p, _, hm⟩ := ht
  unfold mkTx at hm
  cases hd : parseDate jsd (pickKey p.2 dateKeys) <;>
    cases ha : parseAmount (pickKey p.2 amountKeys) <;>
      simp only [hd, ha] at hm <;>
        try exact Option.noConfusion hm
  case some.some d a =>
    by_cases hn : jsTrim ((pickKey p.2 nameKeys).getD []) = []
    · rw [if_pos hn] at hm
      exact Option.noConfusion hm
    · rw [if_neg hn] at hm
      injection hm with h2
      rw [← h2]
      constructor
      · by_cases h3 : jsTrim ((pickKey p.2 categoryKeys).getD []) = [] <;> simp [h3]
      · intro htype
        have h4 := classifyTx_uncategorized _ _ _ htype
        have h5 : jsTrim ((pickKey p.2 categoryKeys).getD []) = [] := by
          rcases h4 with h4 | h4
          · exact h4
          · exact jsTrim_jsTrim_nil _ h4
        have h0 : jsTrim ([] : List Char) = [] := rfl
        refine ⟨by simp [h5], ?_, ?_⟩ <;> simp [h5, parseCategory, h0]

/-- Witness for C10: a row with no category column yields an uncategorized
record whose category fields are the Uncategorized literal. -/
theorem claim_C10_uncategorized_invariant_witness :
    ({ id := "D_0_N".toList
       date := 5
       name := ['N']
       amount := ((2 : Nat) : ℚ)
       categoryRaw := "Uncategorized".toList
       categoryBase := "Uncategorized".toList
       tags := []
       type := TxType.uncategorized } : Transaction).categoryRaw ≠ [] ∧
    (({ id := "D_0_N".toList
        date := 5
        name := ['N']
        amount := ((2 : Nat) : ℚ)
        categoryRaw := "Uncategorized".toList
        categoryBase := "Uncategorized".toList
        tags := []
        type := TxType.uncategorized } : Transaction).type = TxType.uncategorized →
      ({ id := "D_0_N".toList
         date := 5
         name := ['N']
         amount := ((2 : Nat) : ℚ)
         categoryRaw := "Uncategorized".toList
         categoryBase := "Uncategorized".toList
         tags := []
         type := TxType.uncategorized } : Transaction).categoryRaw = "Uncategorized".toList ∧
      ({ id := "D_0_N".toList
         date := 5
         name := ['N']
         amount := ((2 : Nat) : ℚ)
         categoryRaw := "Uncategorized".toList
         categoryBase := "Uncategorized".toList
         tags := []
         type := TxType.uncategorized } : Transaction).categoryBase = "Uncategorized".toList ∧
      ({ id := "D_0_N".toList
         date := 5
         name := ['N']
         amount := ((2 : Nat) : ℚ)
         categoryRaw := "Uncategorized".toList
         categoryBase := "Uncategorized".toList
         tags := []
         type := TxType.uncategorized } : Transaction).tags = []) :=
  claim_C10_uncategorized_invariant
    (fun s => if s = ['d'] then some 5 else none) (fun _ => ['D']) []
    [[("date".toList, ['d']), ("name".toList, ['N']), ("amount".toList, ['2'])]]
    _ (by decide)

end Wisely
